import Mathlib

/-!
Verification of the parallel-iterator combinator and aggregation layer
(`src/iter/mod.rs`) against its natural-language specification.

The combinator bodies present in `src/iter/mod.rs` (reduce_with, min_by,
max_by, any, all, eq, ne, the zip_eq and chunks assertions, ...) are
embedded directly from that source.  Parts of the repository that the
claims need but whose implementation files are not under `src/` (the
plumbing Producer protocol, find, find_first_last, reduce, chunks, zip,
interleave) are modelled from the specification and from the doc
comments and doc tests that `src/iter/mod.rs` itself carries for them;
each such definition says so in its doc comment.

Sequences are embedded as Lean lists, a divide-and-conquer execution as
a binary tree of contiguous leaf spans, contract violations
(Rust panics) as `Except.error`, and the absent-value outcome
(Rust `None`) as `Option.none`.
-/

namespace RayonIter

universe u v w

variable {α : Type u} {β : Type v} {γ : Type w}

/-- Modelled from the spec: the Producer contract (plumbing module, not
in src).  `split_at i` on a producer owning span `S` yields two
producers owning `take i S` and `drop i S`; their sub-spans concatenated
reconstruct the original in the same relative order (spec sections 3
and 6). -/
def prodSplitAt (i : Nat) (S : List α) : List α × List α :=
  (S.take i, S.drop i)

/-- Modelled from the spec: `fold_into` of a Producer consumes its span
sequentially into an accumulator (spec section 3). -/
def foldSpan (f : β → α → β) (init : β) (span : List α) : β :=
  span.foldl f init

/-- Embedded from `min_by` (src/src/iter/mod.rs:954-961): the reducing
closure keeps the earlier element `a` unless it compares strictly
greater than the later element `b`.  `cmp::min`, used by `min`
(mod.rs:931-935), has the same shape with `f = compare`. -/
def minByCombine (f : α → α → Ordering) (a b : α) : α :=
  match f a b with
  | .gt => b
  | _ => a

/-- Embedded from `max_by` (src/src/iter/mod.rs:1035-1042): the reducing
closure keeps the earlier element `a` only when it compares strictly
greater; on `Less` or `Equal` the later element `b` survives.
`cmp::max`, used by `max` (mod.rs:1012-1016), has the same shape with
`f = compare`. -/
def maxByCombine (f : α → α → Ordering) (a b : α) : α :=
  match f a b with
  | .gt => a
  | _ => b

/-- Modelled from the spec: `zip` truncates to the shorter length
(doc comment at src/src/iter/mod.rs:1463-1465; the zip implementation
file is not in src). -/
def zipPar (l₁ : List α) (l₂ : List β) : List (α × β) :=
  List.zip l₁ l₂

/-- Embedded from `zip_eq` (src/src/iter/mod.rs:1492-1499): the length
equality is asserted at the call site, before the zipped iterator is
even constructed; a mismatch is a contract violation, rendered as an
`Except.error` in this embedding. -/
def zipEqChecked (l₁ : List α) (l₂ : List β) : Except String (List (α × β)) :=
  if l₁.length = l₂.length then .ok (zipPar l₁ l₂)
  else .error "assertion failed: self.len() == zip_op_iter.len()"

/-- Modelled from the spec: `chunks(n)` regroups a flat sequence into
consecutive groups of `n` items, the final group possibly shorter (spec
section 4.3; the chunks implementation file is not in src, and its
behaviour is also fixed by the doc test at
src/src/iter/mod.rs:1554-1558). -/
def chunksList (n : Nat) (l : List α) : List (List α) :=
  if _hn : n = 0 then []
  else if _hl : l.length = 0 then []
  else l.take n :: chunksList n (l.drop n)
termination_by l.length
decreasing_by
  simp only [List.length_drop]
  omega

/-- Embedded from `chunks` (src/src/iter/mod.rs:1560-1563): the
`chunk_size != 0` assertion fires at the call site before the chunked
iterator is constructed; the violation is rendered as an `Except.error`
in this embedding. -/
def chunksChecked (n : Nat) (l : List α) : Except String (List (List α)) :=
  if n = 0 then .error "chunk_size must not be zero"
  else .ok (chunksList n l)

/-- Modelled from the spec: `reduce(identity, op)` over a partition of
the sequence into contiguous sub-spans (the reduce implementation file
is not in src).  Each leaf span is folded sequentially starting from a
fresh copy of the caller-supplied identity, and the partial results are
merged with `op`, again seeded with the identity — the identity is
inserted at every split boundary (spec section 4.4). -/
def reducePartition (identity : α) (op : α → α → α) (parts : List (List α)) : α :=
  (parts.map (fun part => part.foldl op identity)).foldl op identity

/-- Modelled from the spec: a split topology — the binary tree of
contiguous leaf spans that one divide-and-conquer execution produces
(spec sections 4.1 and 4.4; the drive loop lives in the plumbing
module, which is not in src). -/
inductive SplitTree (α : Type u) where
  | leaf : List α → SplitTree α
  | node : SplitTree α → SplitTree α → SplitTree α

/-- The item sequence a split topology covers, in order. -/
def SplitTree.flatten {α : Type u} : SplitTree α → List α
  | .leaf l => l
  | .node lt rt => lt.flatten ++ rt.flatten

/-- Modelled from the spec: `find_first` (find_first_last module, not in
src).  A leaf scans its span left to right for the first match; the
Reducer prefers the left branch match over the right one (spec
section 4.4). -/
def findFirstTree (p : α → Bool) : SplitTree α → Option α
  | .leaf l => l.find? p
  | .node lt rt => (findFirstTree p lt).or (findFirstTree p rt)

/-- Modelled from the spec: `find_last` (find_first_last module, not in
src), the mirror of `find_first`.  A leaf scans its span right to left;
the Reducer prefers the right branch match (spec section 4.4). -/
def findLastTree (p : α → Bool) : SplitTree α → Option α
  | .leaf l => l.reverse.find? p
  | .node lt rt => (findLastTree p rt).or (findLastTree p lt)

/-- Modelled from the spec: `find_any` (find module, not in src) returns
a matching item when one exists and the no-value outcome otherwise; the
race between branches is determinised here to the first match. -/
def findAny (p : α → Bool) (l : List α) : Option α :=
  l.find? p

/-- Modelled from the doc comment and doc test of `interleave`
(src/src/iter/mod.rs:1501-1513; the implementation file is not in src):
alternately yields elements of both sequences until both are exhausted;
once one side runs out, the remaining elements of the other follow. -/
def interleave : List α → List α → List α
  | [], ys => ys
  | x :: xs, [] => x :: xs
  | x :: xs, y :: ys => x :: y :: interleave xs ys

/-- Modelled from the doc comment and doc test of `interleave_shortest`
(src/src/iter/mod.rs:1522-1531; the implementation file is not in src):
alternately yields elements of both sequences, stopping as soon as one
side is exhausted. -/
def interleaveShortest : List α → List α → List α
  | [], _ => []
  | x :: _, [] => [x]
  | x :: xs, y :: ys => x :: y :: interleaveShortest xs ys

/-- Embedded from the fold closure of `reduce_with`
(src/src/iter/mod.rs:668-671): each leaf folds its span into an
optional value, starting from `None`. -/
def reduceWithLeaf (op : α → α → α) (l : List α) : Option α :=
  l.foldl
    (fun acc b =>
      match acc with
      | some a => some (op a b)
      | none => some b)
    none

/-- Embedded from the reduce closure of `reduce_with`
(src/src/iter/mod.rs:672-676): optional partial results of two branches
are merged, combining two present values with `op` and passing a single
present value through. -/
def mergeOpt (op : α → α → α) : Option α → Option α → Option α
  | some a, some b => some (op a b)
  | some v, none => some v
  | none, some v => some v
  | none, none => none

/-- Embedded from `reduce_with` (src/src/iter/mod.rs:665-677), driven
over a partition into contiguous leaf spans: leaves fold to optional
values, which the reduction merges starting from `None`. -/
def reduceWithPar (op : α → α → α) (parts : List (List α)) : Option α :=
  (parts.map (reduceWithLeaf op)).foldl (mergeOpt op) none

/-- Embedded from `min` (src/src/iter/mod.rs:931-935):
`reduce_with(cmp::min)`. -/
def minPar (f : α → α → Ordering) (parts : List (List α)) : Option α :=
  reduceWithPar (minByCombine f) parts

/-- Embedded from `max` (src/src/iter/mod.rs:1012-1016):
`reduce_with(cmp::max)`. -/
def maxPar (f : α → α → Ordering) (parts : List (List α)) : Option α :=
  reduceWithPar (maxByCombine f) parts

/-- Embedded from `any` (src/src/iter/mod.rs:1204-1208):
`self.map(predicate).find_any(|p| p).is_some()`. -/
def anyPar (p : α → Bool) (l : List α) : Bool :=
  (findAny (fun b => b) (l.map p)).isSome

/-- Embedded from `all` (src/src/iter/mod.rs:1225-1229):
`self.map(predicate).find_any(|p| not p).is_none()`. -/
def allPar (p : α → Bool) (l : List α) : Bool :=
  (findAny (fun b => !b) (l.map p)).isNone

/-- Embedded from `eq` (src/src/iter/mod.rs:1597-1604):
`self.len() == other.len() && self.zip(other).all(x eq y)`. -/
def eqPar (f : α → β → Bool) (l₁ : List α) (l₂ : List β) : Bool :=
  (l₁.length == l₂.length) && allPar (fun xy => f xy.1 xy.2) (zipPar l₁ l₂)

/-- Embedded from `ne` (src/src/iter/mod.rs:1608-1614): `!self.eq(other)`. -/
def nePar (f : α → β → Bool) (l₁ : List α) (l₂ : List β) : Bool :=
  !(eqPar f l₁ l₂)

/-! ## Helper lemmas -/

/-- Folding a span with `+` from an accumulator adds the span total. -/
lemma foldl_add_eq {M : Type u} [AddMonoid M] (l : List M) (a : M) :
    l.foldl (· + ·) a = a + l.sum := by
  induction l generalizing a with
  | nil => simp
  | cons x xs ih => simp [ih, add_assoc]

/-- For every split topology, `find_first` computes the sequentially
first match of the covered sequence. -/
lemma findFirstTree_eq (p : α → Bool) (t : SplitTree α) :
    findFirstTree p t = t.flatten.find? p := by
  induction t with
  | leaf l => rfl
  | node lt rt ihl ihr =>
      simp [findFirstTree, SplitTree.flatten, ihl, ihr, List.find?_append]

/-- For every split topology, `find_last` computes the sequentially
last match of the covered sequence. -/
lemma findLastTree_eq (p : α → Bool) (t : SplitTree α) :
    findLastTree p t = t.flatten.reverse.find? p := by
  induction t with
  | leaf l => rfl
  | node lt rt ihl ihr =>
      simp [findLastTree, SplitTree.flatten, ihl, ihr, List.find?_append]

/-- The chunks of a sequence concatenate back to the sequence. -/
lemma chunks_flat (n : Nat) (l : List α) (h : 0 < n) :
    (chunksList n l).flatten = l := by
  induction l using chunksList.induct n with
  | case1 x hn => omega
  | case2 x hn hl => rw [chunksList]; simp_all
  | case3 x hn hl ih =>
      rw [chunksList]
      simp [hn, hl, List.flatten_cons, ih]

/-- Every chunk holds at most `n` items and is nonempty. -/
lemma chunks_len (n : Nat) (l : List α) (h : 0 < n) :
    ∀ c ∈ chunksList n l, c.length ≤ n ∧ c ≠ [] := by
  induction l using chunksList.induct n with
  | case1 x hn => omega
  | case2 x hn hl => rw [chunksList]; simp [hn, hl]
  | case3 x hn hl ih =>
      rw [chunksList]
      simp only [hn, hl, dite_false]
      intro c hc
      rcases List.mem_cons.mp hc with rfl | hc2
      · have hpos : 0 < (x.take n).length := by
          rw [List.length_take]
          omega
        refine ⟨?_, List.length_pos.mp hpos⟩
        rw [List.length_take]
        omega
      · exact ih c hc2

/-- Every chunk except possibly the final one holds exactly `n` items. -/
lemma chunks_dropLast (n : Nat) (l : List α) (h : 0 < n) :
    ∀ c ∈ (chunksList n l).dropLast, c.length = n := by
  induction l using chunksList.induct n with
  | case1 x hn => omega
  | case2 x hn hl => rw [chunksList]; simp [hn, hl]
  | case3 x hn hl ih =>
      rw [chunksList]
      simp only [hn, hl, dite_false]
      by_cases hrest : chunksList n (x.drop n) = []
      · simp [hrest]
      · rw [List.dropLast_cons_of_ne_nil hrest]
        intro c hc
        rcases List.mem_cons.mp hc with rfl | hc2
        · have hlen : ¬ (x.drop n).length = 0 := by
            intro h0
            apply hrest
            rw [chunksList]
            simp [hn, h0]
          rw [List.length_take]
          rw [List.length_drop] at hlen
          omega
        · exact ih c hc2

/-- `interleave` keeps every item of both sequences. -/
lemma interleave_length (xs ys : List α) :
    (interleave xs ys).length = xs.length + ys.length := by
  induction xs generalizing ys with
  | nil => simp [interleave]
  | cons x xs ih =>
      cases ys with
      | nil => simp [interleave]
      | cons y ys =>
          simp only [interleave, List.length_cons, ih]
          omega

/-- `interleave_shortest` stops once one side is exhausted: it yields
twice the shorter length, plus one extra item of the first sequence
when the first sequence is the longer one. -/
lemma interleaveShortest_length (xs ys : List α) :
    (interleaveShortest xs ys).length =
      if ys.length < xs.length then 2 * ys.length + 1 else 2 * xs.length := by
  induction xs generalizing ys with
  | nil => simp [interleaveShortest]
  | cons x xs ih =>
      cases ys with
      | nil => simp [interleaveShortest]
      | cons y ys =>
          simp only [interleaveShortest, List.length_cons, ih]
          split
          · split <;> omega
          · split <;> omega

/-- Merging branch results that are all `None` yields `None`. -/
lemma foldl_mergeOpt_none (op : α → α → α) :
    ∀ L : List (Option α), (∀ o ∈ L, o = none) → L.foldl (mergeOpt op) none = none := by
  intro L
  induction L with
  | nil => intro _; rfl
  | cons o L ih =>
      intro h
      have ho := h o (List.mem_cons_self o L)
      subst ho
      simp only [List.foldl_cons]
      exact ih fun o2 ho2 => h o2 (List.mem_cons_of_mem _ ho2)

/-- `all` succeeds exactly when every item satisfies the predicate. -/
lemma allPar_iff (p : α → Bool) (l : List α) :
    allPar p l = true ↔ ∀ x ∈ l, p x = true := by
  simp [allPar, findAny, Option.isNone_iff_eq_none, List.find?_eq_none]

/-- `any` succeeds exactly when some item satisfies the predicate. -/
lemma anyPar_iff (p : α → Bool) (l : List α) :
    anyPar p l = true ↔ ∃ x ∈ l, p x = true := by
  simp [anyPar, findAny, List.find?_isSome]

/-- A property holds of every zipped pair exactly when it holds of the
items at every index valid in both sequences. -/
lemma forall_zip_iff_get (l₁ : List α) (l₂ : List β) (P : α → β → Prop) :
    (∀ xy ∈ List.zip l₁ l₂, P xy.1 xy.2) ↔
      ∀ (i : Nat) (h₁ : i < l₁.length) (h₂ : i < l₂.length),
        P (l₁.get ⟨i, h₁⟩) (l₂.get ⟨i, h₂⟩) := by
  induction l₁ generalizing l₂ with
  | nil => simp
  | cons x xs ih =>
      cases l₂ with
      | nil => simp
      | cons y ys =>
          simp only [List.zip_cons_cons, List.mem_cons, List.length_cons]
          constructor
          · intro h i h₁ h₂
            cases i with
            | zero => exact h (x, y) (Or.inl rfl)
            | succ j =>
                exact (ih ys).mp (fun xy hxy => h xy (Or.inr hxy)) j
                  (by omega) (by omega)
          · intro h xy hxy
            rcases hxy with rfl | hmem
            · exact h 0 (by omega) (by omega)
            · exact (ih ys).mpr
                (fun i h₁ h₂ => h (i + 1) (by omega) (by omega)) xy hmem

/-! ## The claims -/

/-- Claim C1: splitting a Producer at any valid index yields two halves
whose spans concatenate back to the original sequence, and folding the
two halves separately and merging the partial results with any valid
Reducer (one that correctly merges fold results of adjacent spans)
equals folding the sequence unsplit. -/
theorem claim_C1 :
    ∀ (S : List α) (i : Nat), i ≤ S.length →
      ∀ (F : List α → β) (R : β → β → β),
        (∀ xs ys : List α, R (F xs) (F ys) = F (xs ++ ys)) →
        (prodSplitAt i S).1 ++ (prodSplitAt i S).2 = S ∧
        R (F (prodSplitAt i S).1) (F (prodSplitAt i S).2) = F S := by
  intro S i _ F R hR
  have hcat : (prodSplitAt i S).1 ++ (prodSplitAt i S).2 = S := by
    simp [prodSplitAt]
  refine ⟨hcat, ?_⟩
  rw [hR, hcat]

/-- Witness for C1: the sequence `[1, 2, 3]` split at index 1, folded
with `foldSpan` summation on both halves and merged by addition. -/
theorem claim_C1_witness :
    (prodSplitAt 1 [1, 2, 3]).1 ++ (prodSplitAt 1 [1, 2, 3]).2 = [1, 2, 3] ∧
    (foldSpan (· + ·) 0 (prodSplitAt 1 [1, 2, 3]).1) +
      (foldSpan (· + ·) 0 (prodSplitAt 1 [1, 2, 3]).2) =
        foldSpan (· + ·) (0 : Nat) [1, 2, 3] :=
  claim_C1 [1, 2, 3] 1 (by decide) (foldSpan (· + ·) 0) (· + ·)
    (by
      intro xs ys
      simp [foldSpan, foldl_add_eq, List.sum_append])

/-- Claim C2: whenever the two sides of `zip_eq` have different lengths
the call fails with a contract violation at the call site, before
producing any output; and `chunks 0` fails with a contract violation at
the call site.  In both embeddings the check precedes construction of
the resulting iterator, so no parallel dispatch can have happened. -/
theorem claim_C2 :
    (∀ (l₁ l₂ : List Nat), l₁.length ≠ l₂.length →
      zipEqChecked l₁ l₂ =
        .error "assertion failed: self.len() == zip_op_iter.len()") ∧
    (∀ l : List Nat, chunksChecked 0 l = .error "chunk_size must not be zero") := by
  constructor
  · intro l₁ l₂ h
    simp [zipEqChecked, h]
  · intro l
    simp [chunksChecked]

/-- Witness for C2 at the lengths 1 and 2 named by the spec. -/
theorem claim_C2_witness :
    zipEqChecked [1] [2, 2] =
      .error "assertion failed: self.len() == zip_op_iter.len()" :=
  claim_C2.1 [1] [2, 2] (by decide)

/-- Claim C3: over the enumerated sequence `[1, 2, 3, 3]`, for every
split topology, `find_first` with predicate `(== 3)` returns the item
at index 2 and `find_last` returns the item at index 3; and in every
merge step the `find_first` Reducer prefers the left branch match while
the `find_last` Reducer prefers the right branch match. -/
theorem claim_C3 :
    (∀ t : SplitTree (Nat × Nat),
      t.flatten = [(0, 1), (1, 2), (2, 3), (3, 3)] →
        findFirstTree (fun x => x.2 == 3) t = some (2, 3) ∧
        findLastTree (fun x => x.2 == 3) t = some (3, 3)) ∧
    (∀ (p : Nat × Nat → Bool) (lt rt : SplitTree (Nat × Nat)),
      findFirstTree p (.node lt rt) = (findFirstTree p lt).or (findFirstTree p rt) ∧
      findLastTree p (.node lt rt) = (findLastTree p rt).or (findLastTree p lt)) := by
  constructor
  · intro t h
    rw [findFirstTree_eq, findLastTree_eq, h]
    exact ⟨rfl, rfl⟩
  · intro p lt rt
    exact ⟨rfl, rfl⟩

/-- Witness for C3 at a two-leaf topology splitting `[1, 2, 3, 3]`
between the two matches. -/
theorem claim_C3_witness :
    findFirstTree (fun x => x.2 == 3)
      (.node (.leaf [(0, 1), (1, 2), (2, 3)]) (.leaf [(3, 3)])) = some (2, 3) ∧
    findLastTree (fun x => x.2 == 3)
      (.node (.leaf [(0, 1), (1, 2), (2, 3)]) (.leaf [(3, 3)])) = some (3, 3) :=
  claim_C3.1 (.node (.leaf [(0, 1), (1, 2), (2, 3)]) (.leaf [(3, 3)])) rfl

/-- Claim C4 fails on the code for `max` and `max_by`: merging the equal
elements `(3, 0)` (earlier) and `(3, 1)` (later) under a comparison of
first components, `max_by` returns the later element `(3, 1)`, so the
earlier element does not survive the merge step. -/
theorem claim_C4_counterexample :
    maxByCombine (fun x y : Nat × Nat => compare x.1 y.1) (3, 0) (3, 1) = (3, 1) ∧
    ((3, 1) : Nat × Nat) ≠ (3, 0) := by
  constructor
  · rfl
  · decide

/-- Claim C4 as amended: in a pairwise merge step, `min` and `min_by`
let the later element replace the earlier one exactly when it compares
strictly lesser (ties keep the earlier element), while `max` and
`max_by` keep the earlier element only when it compares strictly
greater (ties keep the later element). -/
theorem claim_C4 :
    ∀ (f : α → α → Ordering) (a b : α),
      (f a b = .gt → minByCombine f a b = b ∧ maxByCombine f a b = a) ∧
      (f a b ≠ .gt → minByCombine f a b = a ∧ maxByCombine f a b = b) := by
  intro f a b
  constructor
  · intro h
    simp [minByCombine, maxByCombine, h]
  · intro h
    cases hf : f a b
    · simp [minByCombine, maxByCombine, hf]
    · simp [minByCombine, maxByCombine, hf]
    · exact absurd hf h

/-- Witness for C4 as amended, at `compare` on naturals with `1 < 2`. -/
theorem claim_C4_witness :
    minByCombine compare (1 : Nat) 2 = 1 ∧ maxByCombine compare (1 : Nat) 2 = 2 :=
  (claim_C4 compare 1 2).2 (by decide)

/-- Claim C5 fails on the code: `interleave` of a length-2 and a
length-4 sequence yields all six items — exactly the doc test at
src/src/iter/mod.rs:1509-1513 — not the 2 * min(2, 4) = 4 items the
claim asserts. -/
theorem claim_C5_counterexample :
    interleave [1, 2] [3, 4, 5, 6] = [1, 3, 2, 4, 5, 6] ∧
    (interleave [1, 2] [3, 4, 5, 6]).length ≠
      2 * min (List.length [1, 2]) (List.length [3, 4, 5, 6]) := by
  constructor
  · rfl
  · decide

/-- Claim C5 as amended: `interleave` does not truncate — it yields all
`m + n` items of both sequences; it is `interleave_shortest` that stops
at the shorter side, yielding `2 * min(m, n)` items, plus one further
item of the first sequence when the first sequence is strictly
longer. -/
theorem claim_C5 :
    ∀ (xs ys : List α),
      (interleave xs ys).length = xs.length + ys.length ∧
      (interleaveShortest xs ys).length =
        if ys.length < xs.length then 2 * ys.length + 1 else 2 * xs.length := by
  intro xs ys
  exact ⟨interleave_length xs ys, interleaveShortest_length xs ys⟩

/-- Claim C6: on empty input, `reduce_with`, `min` and `max` return the
explicit no-value outcome `none` rather than failing, and when the
predicate matches no item the `find_*` family returns `none`, for every
split topology. -/
theorem claim_C6 :
    ∀ (op : Int → Int → Int) (f : Int → Int → Ordering)
      (parts : List (List Int)) (p : Int → Bool) (t : SplitTree Int),
      (parts.flatten = [] →
        reduceWithPar op parts = none ∧ minPar f parts = none ∧
          maxPar f parts = none) ∧
      ((∀ x ∈ t.flatten, p x = false) →
        findAny p t.flatten = none ∧ findFirstTree p t = none ∧
          findLastTree p t = none) := by
  intro op f parts p t
  constructor
  · intro hflat
    have hparts : ∀ part ∈ parts, part = [] := by
      rw [List.flatten_eq_nil_iff] at hflat
      exact hflat
    have hnone : ∀ op2 : Int → Int → Int,
        ∀ o ∈ parts.map (reduceWithLeaf op2), o = none := by
      intro op2 o ho
      rcases List.mem_map.mp ho with ⟨part, hpart, rfl⟩
      rw [hparts part hpart]
      rfl
    exact ⟨foldl_mergeOpt_none op _ (hnone op),
      foldl_mergeOpt_none _ _ (hnone _),
      foldl_mergeOpt_none _ _ (hnone _)⟩
  · intro hmatch
    have h₁ : t.flatten.find? p = none :=
      List.find?_eq_none.mpr fun x hx => by simp [hmatch x hx]
    have h₂ : t.flatten.reverse.find? p = none :=
      List.find?_eq_none.mpr fun x hx => by
        simp [hmatch x (List.mem_reverse.mp hx)]
    refine ⟨h₁, ?_, ?_⟩
    · rw [findFirstTree_eq]
      exact h₁
    · rw [findLastTree_eq]
      exact h₂

/-- Witness for C6: an empty partition of the empty sequence, and a
predicate with no match on the span `[1, 2]`. -/
theorem claim_C6_witness :
    reduceWithPar (· + ·) ([[], []] : List (List Int)) = none ∧
    findFirstTree (fun x : Int => x == 99) (.leaf [1, 2]) = none := by
  have h := claim_C6 (· + ·) compare [[], []] (fun x => x == 99) (.leaf [1, 2])
  exact ⟨(h.1 rfl).1, (h.2 (by decide)).2.1⟩

/-- Claim C7: reducing any partition of an integer sequence into
contiguous sub-spans with identity 0 and operator + gives the full
sequential sum, for every number of parts; inserting the identity 0 at
split boundaries never changes the result. -/
theorem claim_C7 :
    ∀ parts : List (List Int),
      reducePartition 0 (· + ·) parts = (parts.flatten).foldl (· + ·) 0 := by
  intro parts
  simp only [reducePartition, foldl_add_eq, zero_add]
  rw [List.sum_flatten]

/-- Claim C8: `chunks 3` over `[1..10]` yields exactly
`[[1,2,3],[4,5,6],[7,8,9],[10]]`; and in general, for every positive
`n`, the chunks concatenate back to the original sequence in order,
every chunk before the last holds exactly `n` items, and every chunk is
nonempty with at most `n` items. -/
theorem claim_C8 :
    (chunksList 3 [1, 2, 3, 4, 5, 6, 7, 8, 9, 10] =
      [[1, 2, 3], [4, 5, 6], [7, 8, 9], [10]]) ∧
    (∀ (n : Nat) (l : List Nat), 0 < n →
      ((chunksList n l).flatten = l ∧
        (∀ c ∈ (chunksList n l).dropLast, c.length = n) ∧
        (∀ c ∈ chunksList n l, c.length ≤ n ∧ c ≠ []))) := by
  refine ⟨by simp [chunksList], ?_⟩
  intro n l h
  exact ⟨chunks_flat n l h, chunks_dropLast n l h, chunks_len n l h⟩

/-- Witness for C8 at chunk size 2 over `[1, 2, 3]`. -/
theorem claim_C8_witness :
    (chunksList 2 [1, 2, 3]).flatten = [1, 2, 3] :=
  (claim_C8.2 2 [1, 2, 3] (by decide)).1

/-- Claim C9: `any` is `find_any` over the mapped predicate asking
whether some match exists, `all` is `find_any` over the mapped negated
predicate asking that no counterexample exists; consequently `any`
holds exactly when some item satisfies the predicate and `all` exactly
when every item does. -/
theorem claim_C9 :
    ∀ (p : α → Bool) (l : List α),
      anyPar p l = (findAny (fun b => b) (l.map p)).isSome ∧
      allPar p l = (findAny (fun b => !b) (l.map p)).isNone ∧
      (anyPar p l = true ↔ ∃ x ∈ l, p x = true) ∧
      (allPar p l = true ↔ ∀ x ∈ l, p x = true) := by
  intro p l
  exact ⟨rfl, rfl, anyPar_iff p l, allPar_iff p l⟩

/-- Claim C10: `eq` returns true exactly when the two sequences have
equal length and the items at every common index are equal, and `ne` is
the boolean negation of `eq`. -/
theorem claim_C10 :
    ∀ (f : α → β → Bool) (l₁ : List α) (l₂ : List β),
      (eqPar f l₁ l₂ = true ↔
        (l₁.length = l₂.length ∧
          ∀ (i : Nat) (h₁ : i < l₁.length) (h₂ : i < l₂.length),
            f (l₁.get ⟨i, h₁⟩) (l₂.get ⟨i, h₂⟩) = true)) ∧
      nePar f l₁ l₂ = !(eqPar f l₁ l₂) := by
  intro f l₁ l₂
  refine ⟨?_, rfl⟩
  rw [eqPar, Bool.and_eq_true, beq_iff_eq, allPar_iff]
  exact and_congr_right fun _ =>
    forall_zip_iff_get l₁ l₂ (fun a b => f a b = true)

end RayonIter
